import Mathlib

/-!
Verification development for the MARLIN clip-segmentation, checkpoint-loading
and feature-aggregation pipeline (`src/marlin_pytorch/model/marlin.py`).

Frames and weight tensors are abstracted by a type variable; a clip is the
list of its frames in temporal order (the pure reshaping done by
`permute`/`unsqueeze` is not modelled).  Fallible operations return
`Except String`.
-/

namespace MarlinPy

variable {α : Type}

/-- Modelled from the spec: `padding_video` from `marlin_pytorch.util` is not
among the sources; per the spec, with mode `same` it pads the frame sequence
to the target length with the repeat-last-frame policy (append copies of the
final decoded frame until the length matches). -/
def padding_video (video : List α) (target : ℕ) : List α :=
  match video.getLast? with
  | none => video
  | some f => video ++ List.replicate (target - video.length) f

/-- The medium-regime branch of `_load_video` (marlin.py lines 166-173) as
written: when the decoder under-reports, `padding_video` is computed into a
local that the slice `video[:clip_frames]` then overwrites (in Python the
local is simply undefined otherwise), so the padding is dead code. -/
def medium_branch (clip_frames : ℕ) (video : List α) : List α :=
  let _v_padded := if video.length < clip_frames then padding_video video clip_frames else video
  video.take clip_frames

/-- Follows the spec words for the medium regime: the yielded clip is just the
first `clip_frames` decoded frames. -/
def medium_branch_spec (clip_frames : ℕ) (video : List α) : List α :=
  video.take clip_frames

/-- Python `collections.deque` with `maxlen = cap`: appending one element evicts the
oldest elements past capacity. -/
def deq_append (cap : ℕ) (d : List α) (x : α) : List α :=
  let d' := d ++ [x]
  d'.drop (d'.length - cap)

/-- Python `range(start, stop, step)` for a positive `step`. -/
def pyRange (start stop step : ℕ) : List ℕ :=
  (List.range ((stop - start + step - 1) / step)).map (fun i => start + i * step)

/-- The list `clip_end_indexes = list(range(clip_frames // 2, total_frames + clip_frames // 2))`
(marlin.py line 182), as the list of integers `current_index` is tested against. -/
def clip_end_indexes (clip_frames total_frames : ℕ) : List ℤ :=
  (pyRange (clip_frames / 2) (total_frames + clip_frames / 2) 1).map (fun n => (n : ℤ))

/-- The `while True` read loop of the long-video regime (marlin.py lines
184-207).  One iteration: read a frame (stop when the stream is exhausted),
increment `current_index`, remember the frame as `last_frame`, pre-fill the
deque with `clip_frames // 2 - 1` copies of the first frame, read and discard
`sample_rate - 1` frames while still incrementing `current_index` (the reads
are not checked for success, so the counter advances past the end of the
stream), append the frame to the deque, and emit a snapshot of the deque
whenever `current_index` is in `ends`.  Returns the emitted clips, the final
deque and the final `last_frame`.  `fuel` bounds the number of iterations;
every call site passes `stream.length`, which one successful read per
iteration can never exhaust first. -/
def long_loop (clip_frames sample_rate : ℕ) (ends : List ℤ) :
    ℕ → List α → List α → Option α → ℤ → List (List α) × List α × Option α
  | 0, _, deq, last, _ => ([], deq, last)
  | fuel + 1, stream, deq, last, current_index =>
    match stream with
    | [] => ([], deq, last)
    | f :: rest =>
      let ci := current_index + 1
      let deq := if ci = 0 then (List.replicate (clip_frames / 2 - 1) f).foldl (deq_append clip_frames) deq else deq
      let rest := rest.drop (sample_rate - 1)
      let ci := ci + ((sample_rate - 1 : ℕ) : ℤ)
      let deq := deq_append clip_frames deq f
      let next := long_loop clip_frames sample_rate ends fuel rest deq (some f) ci
      if ci ∈ ends then (deq :: next.1, next.2) else next

/-- The tail flush of the long-video regime (marlin.py lines 210-213): append
`last_frame` to the deque and re-snapshot, `clip_frames // 2` times. -/
def tail_flush (clip_frames : ℕ) : ℕ → List α → α → List (List α)
  | 0, _, _ => []
  | k + 1, deq, f =>
    let deq := deq_append clip_frames deq f
    deq :: tail_flush clip_frames k deq f

/-- The segmenter `Marlin._load_video` (marlin.py lines 154-213).  `total_frames` is the
probe result; `decoded` is the stream of frames the decoder actually yields
(used by whichever branch runs, bulk `read_video` or the `cv2` stream; the
probe and the decoder may disagree).  In the long regime, `last_frame = None`
at the flush would make `torch.stack` raise, modelled as an error; the dead
`stride`-based index computations (lines 179-180) are kept as unused lets. -/
def load_video (clip_frames sample_rate stride total_frames : ℕ)
    (decoded : List α) : Except String (List (List α)) :=
  if total_frames ≤ clip_frames then
    let v := padding_video decoded clip_frames
    if v.length = clip_frames then .ok [v]
    else .error "assert v.shape[0] == self.clip_frames"
  else if total_frames ≤ clip_frames * sample_rate then
    .ok [medium_branch clip_frames decoded]
  else
    let _clip_start_indexes :=
      pyRange 0 (total_frames - clip_frames * sample_rate) (stride * sample_rate)
    let _clip_end_indexes_dead := _clip_start_indexes.map (fun i => i + clip_frames * sample_rate - 1)
    let ends := clip_end_indexes clip_frames total_frames
    match long_loop clip_frames sample_rate ends decoded.length decoded [] none (-1) with
    | (clips, deq, some f) => .ok (clips ++ tail_flush clip_frames (clip_frames / 2) deq f)
    | (clips, _, none) =>
      if clip_frames / 2 = 0 then .ok clips
      else .error "torch.stack of an empty window"

/-- Python `s.endswith(pat)`: the character list of `pat` is a suffix of the
character list of `s`.  (The core `String.endsWith` is not used because its
byte-position loops do not reduce in the kernel.) -/
def endswith (s pat : String) : Bool :=
  pat.data.isSuffixOf s.data

/-- Python `s.split(sep)` for a single-character separator, over the character
list of the string; the result is never empty. -/
def py_split (sep : Char) : List Char → List (List Char)
  | [] => [[]]
  | c :: rest =>
    match py_split sep rest with
    | [] => [[]]
    | g :: gs => if c = sep then [] :: g :: gs else (c :: g) :: gs

/-- Python `path.split('.')[-1]`: the component after the last dot (the whole
path when it has no dot). -/
def split_dot_last (path : String) : String :=
  ⟨(py_split '.' path.data).getLastD path.data⟩

/-- Python `s.startswith(pat)`: the character list of `pat` is a prefix of
the character list of `s`. -/
def startswith (s pat : String) : Bool :=
  pat.data.isPrefixOf s.data

/-- The sub-components of `Marlin` that `from_file` classification decides
(marlin.py lines 65-87): the decoder and the encoder-to-decoder projection
are instantiated exactly when the model is not a pure feature extractor;
their internals are irrelevant here and abstracted by `Unit`. -/
structure Marlin where
  as_feature_extractor : Bool
  decoder : Option Unit
  enc_dec_proj : Option Unit
  deriving DecidableEq

/-- The constructor `Marlin.__init__` restricted to the fields the claims are about: with
`as_feature_extractor` the decoder and projection are left as `None`,
otherwise both are instantiated. -/
def marlin_mk (as_feature_extractor : Bool) : Marlin :=
  if as_feature_extractor then
    { as_feature_extractor := true, decoder := none, enc_dec_proj := none }
  else
    { as_feature_extractor := false, decoder := some (), enc_dec_proj := some () }

/-- The loading stage of `Marlin.from_file` (marlin.py lines 217-226).  A
checkpoint is a name-to-array mapping; `loaded` is the object `torch.load`
yields for the path, `loaded_state_dict` its `state_dict` field (used only by
the `.ckpt` branch).  In the `.ckpt` branch the keys starting with
`discriminator` are collected and deleted, i.e. the mapping is filtered; the
`.pt` branch returns the mapping unchanged. -/
def from_file_state_dict {w : Type} (path : String)
    (loaded loaded_state_dict : List (String × w)) :
    Except String (List (String × w)) :=
  if endswith path ".pt" then .ok loaded
  else if endswith path ".ckpt" then
    .ok (loaded_state_dict.filter (fun kv => !(startswith kv.1 "discriminator")))
  else .error ("Unsupported file type: " ++ split_dot_last path)

/-- The loader `Marlin.from_file` (marlin.py lines 215-257) up to the classification and
construction the claims are about: load the state mapping, classify it as
full model iff some remaining key starts with `decoder.` (the Python
`for`/`else` scan), and construct the model accordingly.  Returns the model
together with the state mapping it is loaded from. -/
def from_file {w : Type} (path : String)
    (loaded loaded_state_dict : List (String × w)) :
    Except String (Marlin × List (String × w)) :=
  (from_file_state_dict path loaded loaded_state_dict).map
    (fun sd => (marlin_mk (!(sd.any (fun kv => startswith kv.1 "decoder."))), sd))

/-- The amended clip count for the long regime: one clip per read-loop
iteration `k` (the k-th decimated frame, `k` counted from 0 over
`⌈D / sample_rate⌉` iterations for `D` decoder frames) whose raw read
position `(k + 1) * sample_rate - 1` lies in `clip_end_indexes`, plus the
tail flush of `clip_frames / 2`. -/
def long_clip_count (clip_frames sample_rate total_frames D : ℕ) : ℕ :=
  (List.range ((D + sample_rate - 1) / sample_rate)).countP
    (fun (k : ℕ) => decide ((((k : ℤ) + 1) * sample_rate - 1) ∈ clip_end_indexes clip_frames total_frames))
  + clip_frames / 2

/-- Torch `features.mean(dim=0)` for a feature batch given as the list of its rows
(vectors modelled componentwise over `ℚ`): the elementwise sum of the rows
divided by the number of rows. -/
def mean_dim0 : List (List ℚ) → List ℚ
  | [] => []
  | x :: xs =>
    (xs.foldl (fun a w => a.zipWith (· + ·) w) x).map (fun q => q / ((xs.length + 1 : ℕ) : ℚ))

/-- Torch `features.max(dim=0)[0]`: the elementwise maximum of the rows. -/
def max_dim0 : List (List ℚ) → List ℚ
  | [] => []
  | x :: xs => xs.foldl (fun a w => a.zipWith max w) x

/-- The reduction tail of `Marlin.extract_video` (marlin.py lines 145-152):
`features` is the concatenation of the per-clip feature vectors in emission
order; reduction `mean` or `max` collapses the first axis, anything else
returns the batch unchanged. -/
inductive ExtractOutput where
  | vec (v : List ℚ)
  | batch (m : List (List ℚ))
  deriving DecidableEq

/-- Dispatch on the `reduction` argument of `extract_video`. -/
def extract_video_reduce (reduction : String) (features : List (List ℚ)) : ExtractOutput :=
  if reduction = "mean" then .vec (mean_dim0 features)
  else if reduction = "max" then .vec (max_dim0 features)
  else .batch features

/-! ## Theorems -/

/-- C7: for every video in the long regime (`total_frames` above
`clip_frames * sample_rate`) and any two positive stride values, `_load_video`
yields the same sequence of clips: the stride-based index computation is dead,
immediately overwritten by `clip_end_indexes`. -/
theorem load_video_stride_irrelevant {α : Type}
    (clip_frames sample_rate stride1 stride2 total_frames : ℕ) (decoded : List α)
    (h1 : 0 < stride1) (h2 : 0 < stride2)
    (hlong : clip_frames * sample_rate < total_frames) :
    load_video clip_frames sample_rate stride1 total_frames decoded
      = load_video clip_frames sample_rate stride2 total_frames decoded := rfl

/-- Witness for C7 at clip_frames 16, sample_rate 2, strides 1 and 3,
total_frames 33. -/
theorem load_video_stride_irrelevant_witness :
    load_video 16 2 1 33 (List.range 33) = load_video 16 2 3 33 (List.range 33) :=
  load_video_stride_irrelevant 16 2 1 3 33 (List.range 33)
    (by decide) (by decide) (by decide)

/-- C9: for every checkpoint path whose extension is neither `.pt` nor
`.ckpt`, `from_file` fails with the unsupported-format error naming the
component after the last dot, and no model is constructed. -/
theorem from_file_unsupported_extension {w : Type} (path : String)
    (loaded loaded_state_dict : List (String × w))
    (h1 : endswith path ".pt" = false) (h2 : endswith path ".ckpt" = false) :
    from_file path loaded loaded_state_dict
      = .error ("Unsupported file type: " ++ split_dot_last path)
    ∧ ∀ m sd, from_file path loaded loaded_state_dict ≠ .ok (m, sd) := by
  have hsd : from_file_state_dict path loaded loaded_state_dict
      = .error ("Unsupported file type: " ++ split_dot_last path) := by
    simp [from_file_state_dict, h1, h2]
  refine ⟨?_, ?_⟩
  · simp [from_file, hsd, Except.map]
  · intro m sd
    simp [from_file, hsd, Except.map]

/-- Witness for C9 at the path `model.bin`. -/
theorem from_file_unsupported_extension_witness :
    from_file "model.bin" [("a", (0 : ℕ))] [] = .error "Unsupported file type: bin" := by
  have h := (from_file_unsupported_extension "model.bin" [("a", (0 : ℕ))] []
    (by decide) (by decide)).1
  rw [h]
  rfl

/-- C5: for every checkpoint mapping accepted by `from_file`, the model is
constructed full (decoder and projection instantiated) iff some remaining key
starts with `decoder.`; with no such key it is constructed encoder-only. -/
theorem from_file_classification {w : Type} (path : String)
    (loaded loaded_state_dict : List (String × w)) (m : Marlin) (sd : List (String × w))
    (h : from_file path loaded loaded_state_dict = .ok (m, sd)) :
    ((∃ kv ∈ sd, startswith kv.1 "decoder." = true) →
      m.as_feature_extractor = false ∧ m.decoder = some () ∧ m.enc_dec_proj = some ())
    ∧ ((∀ kv ∈ sd, startswith kv.1 "decoder." = false) →
      m.as_feature_extractor = true ∧ m.decoder = none ∧ m.enc_dec_proj = none) := by
  rw [from_file] at h
  cases hsd : from_file_state_dict path loaded loaded_state_dict with
  | error e => rw [hsd] at h; simp [Except.map] at h
  | ok sd0 =>
    rw [hsd] at h
    simp only [Except.map, Except.ok.injEq, Prod.mk.injEq] at h
    obtain ⟨hm, rfl⟩ := h
    subst hm
    constructor
    · rintro ⟨kv, hmem, hpre⟩
      have hany : sd0.any (fun kv => startswith kv.1 "decoder.") = true :=
        List.any_eq_true.mpr ⟨kv, hmem, hpre⟩
      rw [hany]
      exact ⟨rfl, rfl, rfl⟩
    · intro hall
      have hany : sd0.any (fun kv => startswith kv.1 "decoder.") = false := by
        cases hval : sd0.any (fun kv => startswith kv.1 "decoder.") with
        | false => rfl
        | true =>
          obtain ⟨kv, hmem, hpre⟩ := List.any_eq_true.mp hval
          simp [hall kv hmem] at hpre
      rw [hany]
      exact ⟨rfl, rfl, rfl⟩

/-- Witness for C5: a `.pt` mapping with the single key `decoder.w` builds
the full model. -/
theorem from_file_classification_witness :
    (marlin_mk false).as_feature_extractor = false ∧ (marlin_mk false).decoder = some ()
      ∧ (marlin_mk false).enc_dec_proj = some () :=
  (from_file_classification "a.pt" [("decoder.w", (0 : ℕ))] [] (marlin_mk false)
    [("decoder.w", 0)] rfl).1 ⟨("decoder.w", 0), by decide, rfl⟩

/-- Counterexample to C6: a `.pt` checkpoint containing `discriminator.d`
keeps that entry, because only the `.ckpt` branch filters the reserved
discriminator keys. -/
theorem from_file_pt_keeps_discriminator_key :
    ∃ m sd, from_file "m.pt" [("discriminator.d", (0 : ℕ))] [] = .ok (m, sd)
      ∧ ∃ kv ∈ sd, startswith kv.1 "discriminator" = true :=
  ⟨marlin_mk true, [("discriminator.d", 0)], rfl, ("discriminator.d", 0), by decide, rfl⟩

/-- C6 as amended: for paths handled by the `.ckpt` branch, the state mapping
used after classification contains no key starting with `discriminator`;
`.pt` mappings are passed through unfiltered. -/
theorem from_file_ckpt_no_discriminator {w : Type} (path : String)
    (loaded loaded_state_dict : List (String × w)) (sd : List (String × w))
    (hpt : endswith path ".pt" = false) (hck : endswith path ".ckpt" = true)
    (h : from_file_state_dict path loaded loaded_state_dict = .ok sd) :
    ∀ kv ∈ sd, startswith kv.1 "discriminator" = false := by
  rw [from_file_state_dict, hpt] at h
  simp only [Bool.false_eq_true, if_false, hck, if_true, Except.ok.injEq] at h
  subst h
  intro kv hmem
  have := (List.mem_filter.mp hmem).2
  simpa using this

/-- Witness for the amended C6 at the path `m.ckpt` with one discriminator
and one encoder key. -/
theorem from_file_ckpt_no_discriminator_witness :
    startswith "encoder.x" "discriminator" = false :=
  from_file_ckpt_no_discriminator "m.ckpt" [] [("discriminator.d", (0 : ℕ)), ("encoder.x", 0)]
    [("encoder.x", 0)] (by decide) (by decide) rfl ("encoder.x", 0) (by decide)

/-- C10: the medium-regime branch as written equals the plain slice
`video[:clip_frames]` of the bulk-decoded frames (the conditional
repeat-last-frame padding is dead, overwritten by the slice), so when the
decoder under-reports the yielded clip has exactly the decoded count of
frames. -/
theorem medium_branch_refines_slice {α : Type} (clip_frames : ℕ) (video : List α) :
    medium_branch clip_frames video = medium_branch_spec clip_frames video
    ∧ (video.length < clip_frames →
        (medium_branch clip_frames video).length = video.length) := by
  refine ⟨rfl, fun h => ?_⟩
  simp only [medium_branch, List.length_take]
  omega

/-- Witness for C10: an under-reporting decoder with 2 frames against
clip_frames 4 yields a 2-frame clip. -/
theorem medium_branch_refines_slice_witness :
    medium_branch 4 ([0, 1] : List ℕ) = medium_branch_spec 4 [0, 1]
    ∧ (medium_branch 4 ([0, 1] : List ℕ)).length = 2 :=
  ⟨(medium_branch_refines_slice 4 [0, 1]).1,
    (medium_branch_refines_slice 4 [0, 1]).2 (by decide)⟩

/-- C4: in the medium regime (`clip_frames < total_frames` at most
`clip_frames * sample_rate`), provided the decoder reports at least
`clip_frames` frames, `_load_video` yields exactly one clip equal to the
first `clip_frames` decoded frames; the sample rate is not applied. -/
theorem load_video_medium_regime {α : Type}
    (clip_frames sample_rate stride total_frames : ℕ) (decoded : List α)
    (h1 : clip_frames < total_frames) (h2 : total_frames ≤ clip_frames * sample_rate)
    (h3 : clip_frames ≤ decoded.length) :
    load_video clip_frames sample_rate stride total_frames decoded
      = .ok [decoded.take clip_frames]
    ∧ (decoded.take clip_frames).length = clip_frames := by
  constructor
  · rw [load_video, if_neg (Nat.not_le.mpr h1), if_pos h2]
    rfl
  · simp only [List.length_take]
    omega

/-- Witness for C4 at clip_frames 2, sample_rate 2, total_frames 3. -/
theorem load_video_medium_regime_witness :
    load_video 2 2 1 3 [0, 1, 2] = .ok [[0, 1]] ∧ (([0, 1, 2] : List ℕ).take 2).length = 2 :=
  load_video_medium_regime 2 2 1 3 [0, 1, 2] (by decide) (by decide) (by decide)

/-- C3: in the short regime (`total_frames` at most `clip_frames`, with at
least one frame and the decoder agreeing with the probe), `_load_video`
yields exactly one clip of `clip_frames` frames whose first `total_frames`
frames are the decoded video in order and whose remaining frames all equal
the last decoded frame. -/
theorem load_video_short_regime {α : Type}
    (clip_frames sample_rate stride total_frames : ℕ) (decoded : List α)
    (hlen : total_frames = decoded.length) (h0 : 0 < total_frames)
    (hc : total_frames ≤ clip_frames) :
    ∃ clip, load_video clip_frames sample_rate stride total_frames decoded = .ok [clip]
      ∧ clip.length = clip_frames
      ∧ clip.take total_frames = decoded
      ∧ ∀ x ∈ clip.drop total_frames, decoded.getLast? = some x := by
  subst hlen
  have hne : decoded ≠ [] := by
    intro h
    rw [h] at h0
    exact absurd h0 (by simp)
  obtain ⟨f, hf⟩ : ∃ f, decoded.getLast? = some f := by
    cases hl : decoded.getLast? with
    | none => exact absurd (List.getLast?_eq_none_iff.mp hl) hne
    | some f => exact ⟨f, rfl⟩
  have hpad : padding_video decoded clip_frames
      = decoded ++ List.replicate (clip_frames - decoded.length) f := by
    rw [padding_video, hf]
  have hv : (decoded ++ List.replicate (clip_frames - decoded.length) f).length
      = clip_frames := by
    simp only [List.length_append, List.length_replicate]
    omega
  refine ⟨decoded ++ List.replicate (clip_frames - decoded.length) f, ?_, hv, ?_, ?_⟩
  · rw [load_video, if_pos hc, hpad, if_pos hv]
  · exact List.take_left _ _
  · intro x hx
    rw [List.drop_left] at hx
    rw [List.eq_of_mem_replicate hx]
    exact hf

/-- Witness for C3 at clip_frames 3 with the 2-frame video `[7, 8]`. -/
theorem load_video_short_regime_witness :
    ∃ clip, load_video 3 2 16 2 [7, 8] = .ok [clip] ∧ clip.length = 3
      ∧ clip.take 2 = [7, 8] ∧ ∀ x ∈ clip.drop 2, ([7, 8] : List ℕ).getLast? = some x :=
  load_video_short_regime 3 2 16 2 [7, 8] rfl (by decide) (by decide)

/-- C1 fails on the code: at clip_frames 16, sample_rate 2, stride 16,
total_frames 33 (the long regime with the default configuration), the loop
emits clips before the sliding window has filled, so some emitted clip has
fewer than 16 frames (the first emission, at raw read position 9, yields a
12-frame clip). -/
theorem load_video_emits_short_clip :
    (load_video 16 2 16 33 (List.range 33)).map
      (fun clips => clips.any (fun v => v.length != 16)) = .ok true := by
  rfl

/-! Helper lemmas for the reduction properties. -/

lemma zipWith_right_comp (f g : ℚ → ℚ → ℚ) (a v : List ℚ) :
    (a.zipWith f v).zipWith g v = a.zipWith (fun p q => g (f p q) q) v := by
  induction a generalizing v with
  | nil => simp
  | cons x a ih =>
    cases v with
    | nil => simp
    | cons y v => simp [ih]

lemma zipWith_left_of_length_eq (a v : List ℚ) (h : a.length = v.length) :
    a.zipWith (fun p _ => p) v = a := by
  induction a generalizing v with
  | nil => simp
  | cons x a ih =>
    cases v with
    | nil => simp at h
    | cons y v =>
      simp only [List.length_cons, Nat.add_right_cancel_iff] at h
      simp [ih v h]

lemma map_id_of_eq {f : ℚ → ℚ} (h : ∀ q, f q = q) (v : List ℚ) : v.map f = v := by
  induction v with
  | nil => rfl
  | cons q v ih => simp [h, ih]

lemma foldl_zipWith_add_replicate (v : List ℚ) (n : ℕ) :
    ∀ a : List ℚ, a.length = v.length →
      (List.replicate n v).foldl (fun a w => a.zipWith (· + ·) w) a
        = a.zipWith (fun p q => p + (n : ℚ) * q) v := by
  induction n with
  | zero =>
    intro a ha
    simp only [List.replicate, List.foldl_nil, Nat.cast_zero, zero_mul, add_zero]
    exact (zipWith_left_of_length_eq a v ha).symm
  | succ n ih =>
    intro a ha
    rw [List.replicate_succ, List.foldl_cons,
      ih (a.zipWith (· + ·) v) (by simp [List.length_zipWith, ha]),
      zipWith_right_comp]
    congr 1
    funext p q
    push_cast
    ring

lemma mean_dim0_replicate (n : ℕ) (v : List ℚ) (hn : 0 < n) :
    mean_dim0 (List.replicate n v) = v := by
  obtain ⟨m, rfl⟩ : ∃ m, n = m + 1 := ⟨n - 1, by omega⟩
  rw [List.replicate_succ]
  simp only [mean_dim0, List.length_replicate]
  rw [foldl_zipWith_add_replicate v m v rfl, List.zipWith_same, List.map_map]
  apply map_id_of_eq
  intro q
  have hm : ((m + 1 : ℕ) : ℚ) ≠ 0 := by
    push_cast
    positivity
  simp only [Function.comp_apply]
  field_simp
  ring

lemma zipWith_max_right_eq (a v : List ℚ) (h : List.Forall₂ (· ≤ ·) a v) :
    a.zipWith max v = v := by
  induction h with
  | nil => rfl
  | cons hab htl ih => simp [max_eq_right hab, ih]

lemma zipWith_max_left_eq (v w : List ℚ) (h : List.Forall₂ (· ≤ ·) w v) :
    v.zipWith max w = v := by
  induction h with
  | nil => rfl
  | cons hab htl ih => simp [max_eq_left hab, ih]

lemma forall₂_zipWith_max (v : List ℚ) (a w : List ℚ)
    (h1 : List.Forall₂ (· ≤ ·) a v) (h2 : List.Forall₂ (· ≤ ·) w v) :
    List.Forall₂ (· ≤ ·) (a.zipWith max w) v := by
  induction h1 generalizing w with
  | nil =>
    cases h2
    exact List.Forall₂.nil
  | cons hab htl ih =>
    cases h2 with
    | cons hcd htl2 =>
      simp only [List.zipWith_cons_cons]
      exact List.Forall₂.cons (max_le hab hcd) (ih _ htl2)

lemma foldl_zipWith_max_eq (v : List ℚ) (l : List (List ℚ)) :
    ∀ acc : List ℚ,
      List.Forall₂ (· ≤ ·) acc v → (∀ w ∈ l, List.Forall₂ (· ≤ ·) w v) →
      (v ∈ l ∨ acc = v) →
      l.foldl (fun a w => a.zipWith max w) acc = v := by
  induction l with
  | nil =>
    intro acc hacc hall hv
    rcases hv with hv | rfl
    · exact absurd hv (List.not_mem_nil v)
    · rfl
  | cons w t ih =>
    intro acc hacc hall hv
    rw [List.foldl_cons]
    rcases hv with hv | hveq
    · rcases List.mem_cons.mp hv with rfl | hvt
      · rw [zipWith_max_right_eq acc v hacc]
        exact ih v (List.forall₂_same.mpr fun x _ => le_refl x)
          (fun x hx => hall x (List.mem_cons_of_mem _ hx)) (Or.inr rfl)
      · exact ih (acc.zipWith max w)
          (forall₂_zipWith_max v acc w hacc (hall w (List.mem_cons_self w t)))
          (fun x hx => hall x (List.mem_cons_of_mem _ hx)) (Or.inl hvt)
    · rw [hveq, zipWith_max_left_eq v w (hall w (List.mem_cons_self w t))]
      exact ih v (List.forall₂_same.mpr fun x _ => le_refl x)
        (fun x hx => hall x (List.mem_cons_of_mem _ hx)) (Or.inr rfl)

lemma max_dim0_dominant (fb : List (List ℚ)) (v : List ℚ)
    (hv : v ∈ fb) (hdom : ∀ w ∈ fb, List.Forall₂ (· ≤ ·) w v) :
    max_dim0 fb = v := by
  cases fb with
  | nil => exact absurd hv (List.not_mem_nil v)
  | cons x xs =>
    simp only [max_dim0]
    refine foldl_zipWith_max_eq v xs x (hdom x (List.mem_cons_self x xs))
      (fun w hw => hdom w (List.mem_cons_of_mem _ hw)) ?_
    rcases List.mem_cons.mp hv with rfl | hvt
    · exact Or.inr rfl
    · exact Or.inl hvt

/-- C8: in `extract_video`, a `mean` reduction over a batch of n identical
feature vectors returns that vector; a `max` reduction over a batch in which
one vector dominates every row elementwise returns that vector; with
reduction `none` the full batch is returned unchanged. -/
theorem extract_video_reduce_spec (n : ℕ) (v : List ℚ) (fb : List (List ℚ)) :
    (0 < n → extract_video_reduce "mean" (List.replicate n v) = .vec v)
    ∧ ((v ∈ fb ∧ ∀ w ∈ fb, List.Forall₂ (· ≤ ·) w v) →
        extract_video_reduce "max" fb = .vec v)
    ∧ extract_video_reduce "none" fb = .batch fb := by
  refine ⟨fun hn => ?_, fun h => ?_, ?_⟩
  · rw [extract_video_reduce, if_pos rfl, mean_dim0_replicate n v hn]
  · rw [extract_video_reduce, if_neg (by decide), if_pos rfl,
      max_dim0_dominant fb v h.1 h.2]
  · rw [extract_video_reduce, if_neg (by decide), if_neg (by decide)]

/-- Witness for C8: mean over two copies of `[1, 2]`, and max over a batch
dominated by `[1, 2]`. -/
theorem extract_video_reduce_spec_witness :
    extract_video_reduce "mean" (List.replicate 2 [(1 : ℚ), 2]) = .vec [1, 2]
    ∧ extract_video_reduce "max" [[(0 : ℚ), 1], [1, 2]] = .vec [1, 2] := by
  constructor
  · exact (extract_video_reduce_spec 2 [1, 2] [[0, 1], [1, 2]]).1 (by decide)
  · refine (extract_video_reduce_spec 2 [1, 2] [[0, 1], [1, 2]]).2.1 ⟨by simp, ?_⟩
    intro w hw
    rcases List.mem_cons.mp hw with rfl | hw
    · exact List.Forall₂.cons (by norm_num) (List.Forall₂.cons (by norm_num) List.Forall₂.nil)
    · rcases List.mem_cons.mp hw with rfl | hw
      · exact List.Forall₂.cons le_rfl (List.Forall₂.cons le_rfl List.Forall₂.nil)
      · exact absurd hw (List.not_mem_nil w)

/-! Helper lemmas for the long-regime clip count. -/

lemma tail_flush_length {α : Type} (c : ℕ) :
    ∀ (k : ℕ) (deq : List α) (f : α), (tail_flush c k deq f).length = k := by
  intro k
  induction k with
  | zero => intro deq f; rfl
  | succ k ih => intro deq f; simp [tail_flush, ih]

lemma long_loop_last_isSome {α : Type} (c s : ℕ) (ends : List ℤ) :
    ∀ (fuel : ℕ) (stream deq : List α) (last : Option α) (ci : ℤ),
      last.isSome = true →
      ((long_loop c s ends fuel stream deq last ci).2.2).isSome = true := by
  intro fuel
  induction fuel with
  | zero => intro stream deq last ci h; exact h
  | succ n ih =>
    intro stream deq last ci h
    cases stream with
    | nil => exact h
    | cons f rest =>
      simp only [long_loop]
      split
      · exact ih _ _ _ _ rfl
      · exact ih _ _ _ _ rfl

lemma long_loop_last_isSome_of_ne_nil {α : Type} (c s : ℕ) (ends : List ℤ)
    (fuel : ℕ) (stream deq : List α) (last : Option α) (ci : ℤ)
    (hfuel : stream.length ≤ fuel) (hne : stream ≠ []) :
    ((long_loop c s ends fuel stream deq last ci).2.2).isSome = true := by
  cases stream with
  | nil => exact absurd rfl hne
  | cons f rest =>
    cases fuel with
    | zero => simp at hfuel
    | succ n =>
      simp only [long_loop]
      split
      · exact long_loop_last_isSome c s ends n _ _ _ _ rfl
      · exact long_loop_last_isSome c s ends n _ _ _ _ rfl

lemma countP_emit_shift (ends : List ℤ) (sZ ci : ℤ) (K : ℕ) :
    List.countP (fun (k : ℕ) => decide ((ci + ((k : ℤ) + 1) * sZ) ∈ ends)) (List.range (K + 1))
      = (if (ci + sZ) ∈ ends then 1 else 0)
        + List.countP (fun (k : ℕ) => decide ((ci + sZ + ((k : ℤ) + 1) * sZ) ∈ ends))
            (List.range K) := by
  rw [List.range_succ_eq_map, List.countP_cons, List.countP_map, Nat.add_comm]
  congr 1
  · have hx : ci + (((0 : ℕ) : ℤ) + 1) * sZ = ci + sZ := by
      push_cast
      ring
    simp only [hx, decide_eq_true_eq]
  · apply List.countP_congr
    intro k _
    simp only [Function.comp_apply, decide_eq_true_eq]
    have hx : ci + (((Nat.succ k : ℕ) : ℤ) + 1) * sZ = ci + sZ + ((k : ℤ) + 1) * sZ := by
      push_cast
      ring
    rw [hx]

/-- Each iteration of the read loop emits one clip exactly when its raw read
position lies in `ends`; over a stream of length `L` there are
`(L + s - 1) / s` iterations, and the k-th checks position `ci + (k+1) * s`
for entry counter `ci`. -/
lemma long_loop_clips_count {α : Type} (c s : ℕ) (ends : List ℤ) (hs : 0 < s) :
    ∀ (fuel : ℕ) (stream deq : List α) (last : Option α) (ci : ℤ),
      stream.length ≤ fuel →
      ((long_loop c s ends fuel stream deq last ci).1).length
        = List.countP (fun (k : ℕ) => decide ((ci + ((k : ℤ) + 1) * s) ∈ ends))
            (List.range ((stream.length + s - 1) / s)) := by
  intro fuel
  induction fuel with
  | zero =>
    intro stream deq last ci h
    have hnil : stream = [] := List.length_eq_zero.mp (Nat.le_zero.mp h)
    subst hnil
    have hdiv : (([] : List α).length + s - 1) / s = 0 := by
      simp only [List.length_nil, Nat.zero_add]
      exact Nat.div_eq_of_lt (by omega)
    rw [hdiv]
    rfl
  | succ n ih =>
    intro stream deq last ci h
    cases stream with
    | nil =>
      have hdiv : (([] : List α).length + s - 1) / s = 0 := by
        simp only [List.length_nil, Nat.zero_add]
        exact Nat.div_eq_of_lt (by omega)
      rw [hdiv]
      rfl
    | cons f rest =>
      have hlen : (rest.drop (s - 1)).length ≤ n := by
        simp only [List.length_drop]
        simp only [List.length_cons] at h
        omega
      have hK : ((f :: rest).length + s - 1) / s = rest.length / s + 1 := by
        simp only [List.length_cons]
        have h1 : rest.length + 1 + s - 1 = rest.length + s := by omega
        rw [h1, Nat.add_div_right _ hs]
      have hK' : ((rest.drop (s - 1)).length + s - 1) / s = rest.length / s := by
        simp only [List.length_drop]
        rcases Nat.le_total (s - 1) rest.length with hle | hle
        · have h1 : rest.length - (s - 1) + s - 1 = rest.length := by omega
          rw [h1]
        · have h1 : rest.length - (s - 1) = 0 := by omega
          rw [h1, Nat.zero_add, Nat.div_eq_of_lt (by omega),
            Nat.div_eq_of_lt (by omega)]
      have hci : ci + 1 + ((s - 1 : ℕ) : ℤ) = ci + (s : ℤ) := by omega
      simp only [long_loop, hci]
      rw [hK, countP_emit_shift]
      by_cases hmem : (ci + (s : ℤ)) ∈ ends
      · simp only [if_pos hmem]
        simp only [List.length_cons]
        rw [ih _ _ _ _ hlen, hK']
        omega
      · simp only [if_neg hmem]
        rw [ih _ _ _ _ hlen, hK']
        omega

/-- Counterexample to C2 as stated: at clip_frames 2, sample_rate 3, stride 1,
total_frames 7 with a 7-frame decode, `_load_video` yields 3 clips.  The
claim predicts `total_frames` emission-index matches plus a tail flush of
`clip_frames / 2`, i.e. `7 + 2 / 2 = 8` clips; under the reading where the
emission index is the running count of decimated frames processed so far
(counts 1, 2, 3, all inside the set), it predicts `3 + 2 / 2 = 4` clips.
Both differ from the actual 3: the code tests the raw decoder position
`(k + 1) * sample_rate - 1` (positions 2, 5, 8, of which 8 falls outside the
set), not the decimated count. -/
theorem load_video_long_count_counterexample :
    (load_video 2 3 1 7 (List.range 7)).map List.length = .ok 3
    ∧ (3 : ℕ) ≠ 7 + 2 / 2 ∧ (3 : ℕ) ≠ 3 + 2 / 2 :=
  ⟨rfl, by decide, by decide⟩

/-- C2 as amended: in the long regime (with a positive sample rate and a
nonempty decode of D frames), the number of yielded clips is the number of
read-loop iterations k < ⌈D / sample_rate⌉ whose raw decoder position
`(k + 1) * sample_rate - 1` falls in
`{clip_frames / 2, …, total_frames + clip_frames / 2 - 1}`, plus the fixed
tail flush of `clip_frames / 2`; the emission index is the raw decoder
read position (skipped reads included), not the decimated-frame count. -/
theorem load_video_long_count {α : Type}
    (clip_frames sample_rate stride total_frames : ℕ) (decoded : List α)
    (hs : 0 < sample_rate) (hT : clip_frames * sample_rate < total_frames)
    (hne : decoded ≠ []) :
    ∃ clips, load_video clip_frames sample_rate stride total_frames decoded = .ok clips
      ∧ clips.length
          = long_clip_count clip_frames sample_rate total_frames decoded.length := by
  have hc1 : ¬ total_frames ≤ clip_frames := by
    have : clip_frames ≤ clip_frames * sample_rate := Nat.le_mul_of_pos_right _ hs
    omega
  have hc2 : ¬ total_frames ≤ clip_frames * sample_rate := by omega
  rw [load_video, if_neg hc1, if_neg hc2]
  dsimp only
  have hsome := long_loop_last_isSome_of_ne_nil clip_frames sample_rate
    (clip_end_indexes clip_frames total_frames) decoded.length decoded [] none (-1)
    (le_refl _) hne
  obtain ⟨lf, hlf⟩ := Option.isSome_iff_exists.mp hsome
  have hcount := long_loop_clips_count clip_frames sample_rate
    (clip_end_indexes clip_frames total_frames) hs decoded.length decoded [] none (-1)
    (le_refl _)
  rcases hr : long_loop clip_frames sample_rate (clip_end_indexes clip_frames total_frames)
      decoded.length decoded [] none (-1) with ⟨clips, deq, last⟩
  rw [hr] at hlf hcount
  simp only at hlf hcount
  subst hlf
  refine ⟨clips ++ tail_flush clip_frames (clip_frames / 2) deq lf, ?_, ?_⟩
  · rfl
  · rw [List.length_append, tail_flush_length, hcount, long_clip_count]
    have hcong : List.countP
          (fun (k : ℕ) => decide
            (((-1 : ℤ) + ((k : ℤ) + 1) * sample_rate) ∈ clip_end_indexes clip_frames total_frames))
          (List.range ((decoded.length + sample_rate - 1) / sample_rate))
        = List.countP
          (fun (k : ℕ) => decide
            ((((k : ℤ) + 1) * sample_rate - 1) ∈ clip_end_indexes clip_frames total_frames))
          (List.range ((decoded.length + sample_rate - 1) / sample_rate)) := by
      apply List.countP_congr
      intro k _
      have hx : (-1 : ℤ) + ((k : ℤ) + 1) * sample_rate
          = ((k : ℤ) + 1) * sample_rate - 1 := by ring
      rw [hx]
    rw [hcong]

/-- Witness for the amended C2 at clip_frames 2, sample_rate 3, stride 1,
total_frames 7: 3 clips, matching the amended count. -/
theorem load_video_long_count_witness :
    ∃ clips, load_video 2 3 1 7 [10, 11, 12, 13, 14, 15, 16] = .ok clips
      ∧ clips.length = long_clip_count 2 3 7 7 :=
  load_video_long_count 2 3 1 7 [10, 11, 12, 13, 14, 15, 16]
    (by decide) (by decide) (by decide)

end MarlinPy
